import Mathlib

/-!
Verification of the session-orchestration engine of a multiplayer
drawing-and-guessing party game (a Next.js / Supabase app).  Each definition
below is a shallow embedding of a function of the TypeScript source; the file
and symbol it embeds are recorded next to each definition.  Machine timestamps
are modelled as integers (milliseconds); JavaScript numbers that only ever
hold exact decimal fractions (12.5, 0.75, 1.5) are modelled as rationals,
which is exact for the ranges involved; player and room identifiers are
modelled as naturals.
-/

namespace DoodleParty

/-! ### Game modes (src/unnamed/part_000, the gameModes library) -/

/-- The three game modes of GAME_MODE_CONFIG. -/
inductive GameMode where
  | classic
  | speed
  | relay
deriving DecidableEq, Repr

/-- GAME_MODE_CONFIG[mode].pointsMultiplier (1.0 / 1.5 / 1.0). -/
def pointsMultiplier : GameMode → ℚ
  | .classic => 1.0
  | .speed => 1.5
  | .relay => 1.0

/-- GAME_MODE_CONFIG[mode].timeMultiplier (1.0 / 0.5 / 1.0). -/
def timeMultiplier : GameMode → ℚ
  | .classic => 1.0
  | .speed => 0.5
  | .relay => 1.0

/-- GAME_MODE_CONFIG[mode].relayPasses (1 / 1 / 3). -/
def relayPasses : GameMode → ℕ
  | .classic => 1
  | .speed => 1
  | .relay => 3

/-- GAME_MODE_CONFIG[mode].wordSelectionTime (10 / 5 / 10). -/
def wordSelectionTimeCfg : GameMode → ℕ
  | .classic => 10
  | .speed => 5
  | .relay => 10

/-- getWordSelectionTime (src/unnamed/part_000 lines 102-104). -/
def getWordSelectionTime (gameMode : GameMode) : ℕ :=
  wordSelectionTimeCfg gameMode

/-! ### Scoring (src/app/_lib/gameUtils.ts) -/

/-- JavaScript Math.round: round half towards positive infinity. -/
def jsRound (q : ℚ) : ℤ :=
  ⌊q + 1 / 2⌋

/-- calculateGuessPoints (src/app/_lib/gameUtils.ts lines 142-158).
BASE_POINTS = 1000, DECAY_PER_SECOND = 12.5, MIN_POINTS = 100; rank
multiplier 1.0 / 0.75 / 0.50; result is Math.round of the product. -/
def calculateGuessPoints (secondsElapsed : ℕ) (guessRank : ℕ) : ℤ :=
  let points : ℚ := 1000 - (secondsElapsed : ℚ) * 12.5
  let points : ℚ := max points 100
  let multiplier : ℚ :=
    if guessRank = 1 then 1.0
    else if guessRank = 2 then 0.75
    else 0.50
  jsRound (points * multiplier)

/-- applyModePointsMultiplier (src/unnamed/part_000 lines 94-97):
Math.floor(basePoints * GAME_MODE_CONFIG[gameMode].pointsMultiplier). -/
def applyModePointsMultiplier (basePoints : ℤ) (gameMode : GameMode) : ℤ :=
  ⌊(basePoints : ℚ) * pointsMultiplier gameMode⌋

/-- Spec-side scoring formula, written from the specification text:
round(max(1000 − 12.5·s, 100) · m) with m = 1.0 / 0.75 / 0.50 by rank. -/
def specBasePoints (s : ℕ) (r : ℕ) : ℤ :=
  jsRound (max (1000 - 12.5 * (s : ℚ)) 100 *
    (if r = 1 then 1.0 else if r = 2 then 0.75 else 0.50))

/-- Spec-side awarded points: floor(base · mode_points_multiplier). -/
def specAwardedPoints (s r : ℕ) (mode : GameMode) : ℤ :=
  ⌊(specBasePoints s r : ℚ) * pointsMultiplier mode⌋

/-! ### Guess matching (src/app/_lib/gameUtils.ts) -/

/-- Whitespace class of the JavaScript whitespace escape in regular
expressions, restricted to the ASCII range. -/
def jsIsSpace (c : Char) : Bool :=
  c = ' ' || c = '\t' || c = '\n' || c = '\r' || c = '\x0b' || c = '\x0c'

/-- String.prototype.trim: drop leading and trailing whitespace. -/
def jsTrim (l : List Char) : List Char :=
  ((l.dropWhile jsIsSpace).reverse.dropWhile jsIsSpace).reverse

/-- The normalisation pipeline of isFuzzyMatch:
s.toLowerCase().trim().replace(whitespace-runs, empty string). -/
def normalizeGuess (s : String) : List Char :=
  (jsTrim (s.data.map Char.toLower)).filter (fun c => !jsIsSpace c)

/-- isFuzzyMatch (src/app/_lib/gameUtils.ts lines 109-115): despite the name,
strict equality of the two normalised strings. -/
def isFuzzyMatch (guess : String) (target : String) : Bool :=
  normalizeGuess guess == normalizeGuess target

/-- Spec-side normalisation, written from the specification text: lowercased,
trimmed, and stripped of all internal whitespace. -/
def specNormalize (s : String) : List Char :=
  (jsTrim (s.data.map Char.toLower)).filter (fun c => !jsIsSpace c)

/-! ### Data model (rooms / players / guesses tables) -/

/-- Room lifecycle status. -/
inductive RoomStatus where
  | waiting
  | playing
  | finished
deriving DecidableEq, Repr

/-- The room settings fields relevant to the orchestration engine. -/
structure RoomSettings where
  draw_time : ℕ
  game_mode : GameMode
  max_players : ℕ
  rounds : ℕ
deriving DecidableEq, Repr

/-- A row of the rooms table. -/
structure Room where
  status : RoomStatus
  current_round : ℕ
  max_rounds : ℕ
  current_drawer_index : ℕ
  current_word : Option String
  word_selected_at : Option ℤ
  turn_ends_at : Option ℤ
  settings : RoomSettings
deriving DecidableEq, Repr

/-- A row of the players table (fields used by the engine).  turn_order is
nullable in the store, hence Option. -/
structure Player where
  id : ℕ
  turn_order : Option ℕ
  is_host : Bool
  is_connected : Bool
deriving DecidableEq, Repr

/-- A row of the guesses table (fields used by the all-guessed check); the
rows are assumed pre-filtered to one room, mirroring the room_id filter of
the store query. -/
structure GuessRow where
  player_id : ℕ
  is_correct : Bool
  guessed_at : ℤ
deriving DecidableEq, Repr

/-! ### Mode-derived times (src/unnamed/part_000) -/

/-- getEffectiveDrawTime (src/unnamed/part_000 lines 75-79):
Math.floor(draw_time * timeMultiplier). -/
def getEffectiveDrawTime (settings : RoomSettings) : ℕ :=
  (⌊(settings.draw_time : ℚ) * timeMultiplier settings.game_mode⌋).toNat

/-- getRelaySegmentTime (src/unnamed/part_000 lines 85-89):
Math.floor(effectiveDrawTime / relayPasses). -/
def getRelaySegmentTime (settings : RoomSettings) : ℕ :=
  getEffectiveDrawTime settings / relayPasses settings.game_mode

/-- getRelayDrawerIndex (src/unnamed/part_000 lines 124-148): the relay
segment reached after `now - wordSelectedAt` milliseconds, clamped to
relayPasses − 1.  Returns 0 outside relay mode or without an active turn.
(The JS division when the segment time is 0 yields Infinity and hence the
clamp value; Lean division by 0 yields 0.  Theorems about this function
therefore assume a positive segment time.) -/
def getRelayDrawerIndex (settings : RoomSettings) (wordSelectedAt : Option ℤ)
    (turnEndsAt : Option ℤ) (now : ℤ) : ℕ :=
  match wordSelectedAt, turnEndsAt with
  | some start, some _ =>
    if settings.game_mode = .relay then
      let segmentTime := getRelaySegmentTime settings
      let elapsed := max 0 (now - start)
      let elapsedSeconds := (elapsed / 1000).toNat
      min (elapsedSeconds / segmentTime) (relayPasses .relay - 1)
    else 0
  | _, _ => 0

/-- Turn-order sort key of nextTurn and getRelayDrawerId: turn_order ?? 0. -/
def turnKey (p : Player) : ℕ :=
  p.turn_order.getD 0

/-- The players array sorted ascending by (turn_order ?? 0), as done in
nextTurn and getRelayDrawerId. -/
def sortByTurnOrder (players : List Player) : List Player :=
  players.insertionSort (fun a b => turnKey a ≤ turnKey b)

instance : IsTotal Player (fun a b => turnKey a ≤ turnKey b) :=
  ⟨fun a b => Nat.le_total (turnKey a) (turnKey b)⟩

instance : IsTrans Player (fun a b => turnKey a ≤ turnKey b) :=
  ⟨fun _ _ _ hab hbc => Nat.le_trans hab hbc⟩

/-- The concrete player set of the turn-advancement example: three players at
turn-order ordinals 0, 1, 2. -/
def playersC2 : List Player :=
  [⟨1, some 0, true, true⟩, ⟨2, some 1, false, true⟩, ⟨3, some 2, false, true⟩]

/-- The concrete room of the turn-advancement example: drawer at turn_order 2,
round 3 of max 3, during a turn. -/
def roomC2 : Room :=
  { status := .playing
    current_round := 3
    max_rounds := 3
    current_drawer_index := 2
    current_word := some "cat"
    word_selected_at := some 0
    turn_ends_at := some 80000
    settings := ⟨80, .classic, 8, 3⟩ }

/-- getRelayDrawerId (src/unnamed/part_000 lines 154-169): resolve the
effective relay drawer as ordinal (baseDrawerIndex + relaySegment) mod
player count, matched against turn_order, with index fallback. -/
def getRelayDrawerId (players : List Player) (baseDrawerIndex : ℕ)
    (relaySegment : ℕ) : Option ℕ :=
  if players.isEmpty then none
  else
    let sortedPlayers := sortByTurnOrder players
    let effectiveIndex := (baseDrawerIndex + relaySegment) % sortedPlayers.length
    match sortedPlayers.find? (fun p => p.turn_order = some effectiveIndex) with
    | some drawer => some drawer.id
    | none => (sortedPlayers.get? (effectiveIndex % sortedPlayers.length)).map (·.id)

/-! ### Room-row mutations -/

/-- Room creation (src/app/page.tsx lines 92-101): insert with status
waiting, current_round 1, max_rounds = settings.rounds; the word, timestamp
and drawer-index columns take their store defaults (null, null, null, 0). -/
def createRoom (settings : RoomSettings) : Room :=
  { status := .waiting
    current_round := 1
    max_rounds := settings.rounds
    current_drawer_index := 0
    current_word := none
    word_selected_at := none
    turn_ends_at := none
    settings := settings }

/-- startGame (src/app/room/[roomId]/LobbyView.tsx lines 36-49).  The JS
`room.settings?.rounds || 3` treats 0 as falsy, hence the 0 check. -/
def startGame (r : Room) : Room :=
  { r with
    status := .playing
    current_round := 1
    current_drawer_index := 0
    turn_ends_at := none
    current_word := none
    word_selected_at := none
    max_rounds := if r.settings.rounds = 0 then 3 else r.settings.rounds }

/-- selectWord (src/unnamed/part_005 lines 366-384): write the chosen word,
word_selected_at = now and turn_ends_at = now + effective draw time. -/
def selectWord (r : Room) (word : String) (now : ℤ) : Room :=
  { r with
    current_word := some word
    turn_ends_at := some (now + (getEffectiveDrawTime r.settings : ℤ) * 1000)
    word_selected_at := some now }

/-- resetGame (src/unnamed/part_005 lines 470-487): host-triggered reset of a
finished room back to the lobby. -/
def resetGame (r : Room) : Room :=
  { r with
    status := .waiting
    current_round := 1
    current_drawer_index := 0
    current_word := none
    turn_ends_at := none
    word_selected_at := none }

/-- nextTurn (src/unnamed/part_005 lines 235-279): advance to the player with
the next turn_order, wrapping to the sorted head and bumping the round;
finish when the bumped round exceeds max_rounds.  Returns none when there are
no players (the function returns before writing). -/
def nextTurn (players : List Player) (r : Room) : Option Room :=
  let sortedPlayers := sortByTurnOrder players
  match sortedPlayers with
  | [] => none
  | p0 :: _ =>
    match sortedPlayers.find? (fun p => decide (r.current_drawer_index < turnKey p)) with
    | some nextPlayer =>
      some { r with
        current_drawer_index := turnKey nextPlayer
        status := .playing
        current_word := none
        turn_ends_at := none }
    | none =>
      let nextRound := r.current_round + 1
      some { r with
        current_drawer_index := turnKey p0
        current_round := nextRound
        status := if r.max_rounds < nextRound then .finished else .playing
        current_word := none
        turn_ends_at := none }

/-! ### All-guessed early turn end (src/unnamed/part_005 lines 168-212) -/

/-- The guesser set of checkAndEndTurnIfAllGuessed: connected players other
than the connected player whose turn_order equals the drawer index. -/
def connectedGuessers (players : List Player) (drawerIndex : ℕ) : List Player :=
  let connectedPlayers := players.filter (·.is_connected)
  match connectedPlayers.find? (fun p => p.turn_order = some drawerIndex) with
  | some drawer => connectedPlayers.filter (fun p => p.id ≠ drawer.id)
  | none => connectedPlayers

/-- checkAndEndTurnIfAllGuessed (src/unnamed/part_005 lines 168-212): a
host-only check; during an active, not-yet-expired turn, if every connected
non-drawer player has a correct guess recorded after word_selected_at, write
turn_ends_at = now.  Returns the written room row, or none when nothing is
written. -/
def checkAndEndTurnIfAllGuessed (isHost : Bool) (players : List Player)
    (guesses : List GuessRow) (now : ℤ) (r : Room) : Option Room :=
  if !isHost then none
  else
    match r.turn_ends_at, r.current_word, r.word_selected_at with
    | some tEnd, some _, some tSel =>
      if tEnd ≤ now then none
      else
        let guesserIds := (connectedGuessers players r.current_drawer_index).map (·.id)
        if guesserIds.isEmpty then none
        else
          let successfulGuesserIds :=
            (guesses.filter (fun g => g.is_correct && decide (tSel < g.guessed_at))).map
              (·.player_id)
          if guesserIds.all (fun i => successfulGuesserIds.contains i) then
            some { r with turn_ends_at := some now }
          else none
    | _, _, _ => none

/-! ### Host failover (src/app/_hooks/useGameState.ts lines 148-220) -/

/-- Sort key of the host-failover candidate ordering: turn_order ?? 999. -/
def hostKey (p : Player) : ℕ :=
  p.turn_order.getD 999

instance : IsTotal Player (fun a b => hostKey a ≤ hostKey b) :=
  ⟨fun a b => Nat.le_total (hostKey a) (hostKey b)⟩

instance : IsTrans Player (fun a b => hostKey a ≤ hostKey b) :=
  ⟨fun _ _ _ hab hbc => Nat.le_trans hab hbc⟩

/-- The online players sorted ascending by (turn_order ?? 999), as computed
inside the host-transfer effect. -/
def onlineSortedPlayers (rawPlayers : List Player) (onlineIds : List ℕ) :
    List Player :=
  (rawPlayers.filter (fun p => decide (p.id ∈ onlineIds))).insertionSort
    (fun a b => hostKey a ≤ hostKey b)

/-- The sequence of is_host writes issued by the host-transfer effect
(src/app/_hooks/useGameState.ts lines 148-220) for a store snapshot
(rawPlayers), presence set (onlineIds) and local client (currentPlayerId).
Empty when the effect performs no write; otherwise the self-promotion write
followed by the demotion write for the stale host row when one exists. -/
def hostFailoverWrites (rawPlayers : List Player) (onlineIds : List ℕ)
    (currentPlayerId : ℕ) : List (ℕ × Bool) :=
  if rawPlayers.isEmpty then []
  else if onlineIds.isEmpty then []
  else
    let currentHost? := rawPlayers.find? (·.is_host)
    let isHostOnline : Bool :=
      match currentHost? with
      | some h => decide (h.id ∈ onlineIds)
      | none => false
    match rawPlayers.find? (fun p => p.id = currentPlayerId) with
    | none => []
    | some currentPlayerInRoom =>
      if (currentHost?.isNone || !isHostOnline) &&
          decide (currentPlayerId ∈ onlineIds) then
        match (onlineSortedPlayers rawPlayers onlineIds).head? with
        | some nextHost =>
          if nextHost.id = currentPlayerId ∧ currentPlayerInRoom.is_host = false
          then
            match currentHost? with
            | some h => [(currentPlayerId, true), (h.id, false)]
            | none => [(currentPlayerId, true)]
          else []
        | none => []
      else []

/-- Apply one is_host write to the players table. -/
def setHost (players : List Player) (pid : ℕ) (v : Bool) : List Player :=
  players.map (fun p => if p.id = pid then { p with is_host := v } else p)

/-- Run the host-transfer write sequence against the table.  The first write
(self-promotion) may fail, in which case the effect returns without issuing
the rest; a failure of the second write (demotion of the stale host) is only
logged and leaves the completed promotion in place. -/
def runHostTransfer (players : List Player) (writes : List (ℕ × Bool))
    (promoteOk demoteOk : Bool) : List Player :=
  match writes with
  | [] => players
  | w :: rest =>
    if promoteOk then
      let players1 := setHost players w.1 w.2
      match rest with
      | [] => players1
      | w2 :: _ => if demoteOk then setHost players1 w2.1 w2.2 else players1
    else players

/-- Concrete host-failover state: the flagged host (player 1, ordinal 0) is
offline; players 2 and 3 (ordinals 1 and 2) are online. -/
def playersC4 : List Player :=
  [⟨1, some 0, true, false⟩, ⟨2, some 1, false, true⟩, ⟨3, some 2, false, true⟩]

/-- The presence set of the concrete host-failover state. -/
def onlineC4 : List ℕ :=
  [2, 3]

/-- Concrete state for the all-guessed check: only the drawer (ordinal 0) is
connected, so the guesser set is empty. -/
def playersC5 : List Player :=
  [⟨1, some 0, true, true⟩]

/-- Concrete room with an active turn (deadline 60000 ms, word selected at
0 ms) and drawer index 0. -/
def roomC5 : Room :=
  { status := .playing
    current_round := 1
    max_rounds := 3
    current_drawer_index := 0
    current_word := some "dog"
    word_selected_at := some 0
    turn_ends_at := some 60000
    settings := ⟨80, .classic, 8, 3⟩ }

/-- Concrete state for the all-guessed check: the drawer plus one connected
guesser (player 2, ordinal 1). -/
def playersC5w : List Player :=
  [⟨1, some 0, true, true⟩, ⟨2, some 1, false, true⟩]

/-- A correct guess of player 2, recorded 500 ms after word selection. -/
def guessesC5w : List GuessRow :=
  [⟨2, true, 500⟩]

/-! ### Reachable room states -/

/-- The room rows reachable through the room-row mutations of the app:
creation, game start, word selection, early turn end, turn advancement and
post-finish reset. -/
inductive ReachableRoom : Room → Prop where
  | create (settings : RoomSettings) : ReachableRoom (createRoom settings)
  | start (r : Room) : ReachableRoom r → ReachableRoom (startGame r)
  | select (r : Room) (word : String) (now : ℤ) :
      ReachableRoom r → ReachableRoom (selectWord r word now)
  | forceEnd (r r' : Room) (isHost : Bool) (players : List Player)
      (guesses : List GuessRow) (now : ℤ) : ReachableRoom r →
      checkAndEndTurnIfAllGuessed isHost players guesses now r = some r' →
      ReachableRoom r'
  | next (r r' : Room) (players : List Player) : ReachableRoom r →
      nextTurn players r = some r' → ReachableRoom r'
  | reset (r : Room) : ReachableRoom r → ReachableRoom (resetGame r)

/-- The invariant of claim C1: current_word is non-null iff turn_ends_at is
non-null. -/
def wordTurnInv (r : Room) : Prop :=
  r.current_word.isSome = r.turn_ends_at.isSome

/-! ### Word selection (src/app/_lib/wordSelector.ts, src/unnamed/part_005) -/

/-- The three word-difficulty tiers. -/
inductive WordDifficulty where
  | easy
  | medium
  | hard
deriving DecidableEq, Repr

/-- Position of a tier in the easy < medium < hard order. -/
def difficultyRank : WordDifficulty → ℕ
  | .easy => 0
  | .medium => 1
  | .hard => 2

/-- DIFFICULTY_CONFIG[difficulty].drawerBonus (25 / 50 / 100). -/
def drawerBonus : WordDifficulty → ℕ
  | .easy => 25
  | .medium => 50
  | .hard => 100

/-- A word choice offered to the drawer. -/
structure WordChoice where
  word : String
  difficulty : WordDifficulty
  bonusPoints : ℕ
deriving DecidableEq, Repr

/-- The destructuring swap of two array positions used by shuffleArray. -/
def listSwap {α : Type} (l : List α) (i j : ℕ) : List α :=
  match l.get? i, l.get? j with
  | some a, some b => (l.set i b).set j a
  | _, _ => l

/-- The Fisher-Yates loop of shuffleArray (src/app/_lib/wordSelector.ts
lines 132-139): for i from length−1 down to 1, draw j uniform in [0, i] and
swap positions i and j.  Randomness is supplied as an oracle list; the entry
r yields j = r mod (i+1), the value floor(random()·(i+1)) of the source. -/
def fyLoop {α : Type} (l : List α) : ℕ → List ℕ → List α
  | 0, _ => l
  | _ + 1, [] => l
  | i + 1, r :: rest => fyLoop (listSwap l (i + 1) (r % (i + 2))) i rest

/-- shuffleArray (src/app/_lib/wordSelector.ts lines 132-139). -/
def shuffleArray {α : Type} (rand : List ℕ) (l : List α) : List α :=
  fyLoop l (l.length - 1) rand

/-- The choice list getWordChoices builds for wordCount ≥ 3 before the final
shuffle: one easy, one medium and one hard candidate, each carrying its
drawer bonus.  The three words themselves are random draws from the pools,
abstracted here as parameters. -/
def preShuffleChoices (we wm wh : String) : List WordChoice :=
  [⟨we, .easy, drawerBonus .easy⟩, ⟨wm, .medium, drawerBonus .medium⟩,
   ⟨wh, .hard, drawerBonus .hard⟩]

/-- getWordChoices for wordCount ≥ 3 (src/app/_lib/wordSelector.ts lines
74-127): the easy/medium/hard triple, shuffled. -/
def getWordChoices (rand : List ℕ) (we wm wh : String) : List WordChoice :=
  shuffleArray rand (preShuffleChoices we wm wh)

/-- The choice auto-selected when the word-selection deadline expires
(src/unnamed/part_005 lines 311-330): wordChoices[0]. -/
def autoSelectedChoice (wordChoices : List WordChoice) : Option WordChoice :=
  wordChoices.head?

/-! ### Player creation on join (src/app/room/[roomId]/JoinScreen.tsx) -/

/-- A players-table row as seen by the join flow. -/
structure LobbyPlayer where
  id : ℕ
  turn_order : ℕ
deriving DecidableEq, Repr

/-- A join or kick/leave event on one room. -/
inductive LobbyEvent where
  | join (id : ℕ)
  | leave (id : ℕ)
deriving DecidableEq, Repr

/-- One lobby event applied to the players table of a room.  joinRoom
(src/app/room/[roomId]/JoinScreen.tsx lines 87-114) inserts the new player
with turn_order = count of existing players, refusing when the room is full;
kick/leave deletes the player's row. -/
def lobbyStep (maxPlayers : ℕ) (s : List LobbyPlayer) :
    LobbyEvent → List LobbyPlayer
  | .join id => if maxPlayers ≤ s.length then s else s ++ [⟨id, s.length⟩]
  | .leave id => s.filter (fun p => p.id ≠ id)

/-- The players table after a sequence of joins and kicks/leaves, starting
from an empty room. -/
def runLobby (maxPlayers : ℕ) (events : List LobbyEvent) : List LobbyPlayer :=
  events.foldl (lobbyStep maxPlayers) []

/-! ### Flood fill (src/app/lib/gameLogic.ts lines 51-166) -/

/-- A pixel: the four channels read from and written to the image data. -/
structure RGBA where
  r : ℕ
  g : ℕ
  b : ℕ
  a : ℕ
deriving DecidableEq, Repr

/-- The canvas pixel buffer: width, height and the row-major pixel list
(the source indexes the flat channel array at (y·width + x)·4). -/
structure Bitmap where
  width : ℕ
  height : ℕ
  data : List RGBA
deriving DecidableEq, Repr

/-- The pixel index (y·width + x) of the source's pixelPos/4. -/
def pixPos (width x y : ℕ) : ℕ :=
  y * width + x

/-- matchColor: the pixel at pos equals the target channelwise (reads past
the buffer compare unequal, as undefined does in the source). -/
def matchColor (data : List RGBA) (target : RGBA) (pos : ℕ) : Bool :=
  data.get? pos = some target

/-- colorPixel: write the fill color at pos. -/
def colorPixel (data : List RGBA) (fill : RGBA) (pos : ℕ) : List RGBA :=
  data.set pos fill

/-- The upward scan of the scanline loop: the number of consecutive rows
matching the target going up from row y in column x (the loop
`while (y >= 0 && matchColor) y--` runs this many times, and the subsequent
y++ makes row y + 1 − upSteps the first row of the downward pass). -/
def upSteps (data : List RGBA) (target : RGBA) (width x : ℕ) : ℕ → ℕ
  | 0 => if matchColor data target (pixPos width x 0) then 1 else 0
  | y + 1 =>
    if matchColor data target (pixPos width x (y + 1)) then
      upSteps data target width x y + 1
    else 0

/-- The downward pass of the scanline loop: while y < height and the pixel
matches, color it, push the left/right neighbours guarded by the reach
flags, and move down. -/
def downWalk (width height : ℕ) (target fill : RGBA) (x : ℕ)
    (y : ℕ) (data : List RGBA) (stack : List (ℕ × ℕ))
    (reachLeft reachRight : Bool) : List RGBA × List (ℕ × ℕ) :=
  if h : y < height ∧ matchColor data target (pixPos width x y) = true then
    let data1 := colorPixel data fill (pixPos width x y)
    let left :=
      if 0 < x then
        if matchColor data1 target (pixPos width (x - 1) y) = true then
          if reachLeft = false then (((x - 1, y) :: stack), true)
          else (stack, reachLeft)
        else (stack, false)
      else (stack, reachLeft)
    let right :=
      if x < width - 1 then
        if matchColor data1 target (pixPos width (x + 1) y) = true then
          if reachRight = false then (((x + 1, y) :: left.1), true)
          else (left.1, reachRight)
        else (left.1, false)
      else (left.1, reachRight)
    downWalk width height target fill x (y + 1) data1 right.1 left.2 right.2
  else (data, stack)
termination_by height - y
decreasing_by
  have h1 := h.1
  omega

/-- Processing of one popped stack entry (x, y): the upward scan followed by
the downward pass starting at row y + 1 − upSteps. -/
def processPop (width height : ℕ) (target fill : RGBA) (data : List RGBA)
    (stack : List (ℕ × ℕ)) (x y : ℕ) : List RGBA × List (ℕ × ℕ) :=
  downWalk width height target fill x (y + 1 - upSteps data target width x y)
    data stack false false

/-- The outer stack loop of floodFill, with the iteration guard modelled as
fuel (the source breaks once its iteration counter exceeds
MAX_ITERATIONS = width·height, i.e. it processes at most
width·height + 1 entries).  Returns the final buffer and the number of
entries processed. -/
def floodLoop (width height : ℕ) (target fill : RGBA) :
    ℕ → List (ℕ × ℕ) → List RGBA → List RGBA × ℕ
  | 0, _, data => (data, 0)
  | _ + 1, [], data => (data, 0)
  | fuel + 1, (x, y) :: rest, data =>
    let step := processPop width height target fill data rest x y
    let next := floodLoop width height target fill fuel step.2 step.1
    (next.1, next.2 + 1)

/-- floodFill (src/app/lib/gameLogic.ts lines 51-166).  px, py are the pixel
coordinates of the seed (the source floors normalized coordinates and
returns if they fall outside the canvas); fill is the resolved fill color
(the source resolves CSS color names via an off-screen 1-pixel render); the
target is the seed pixel's color, and the fill is a no-op when the two are
already equal. -/
def floodFill (bm : Bitmap) (px py : ℕ) (fill : RGBA) : Bitmap :=
  if px < bm.width ∧ py < bm.height then
    match bm.data.get? (pixPos bm.width px py) with
    | none => bm
    | some target =>
      if target = fill then bm
      else
        { bm with
          data := (floodLoop bm.width bm.height target fill
            (bm.width * bm.height + 1) [(px, py)] bm.data).1 }
  else bm

/-- A white pixel. -/
def whiteC10 : RGBA :=
  ⟨255, 255, 255, 255⟩

/-- A red pixel. -/
def redC10 : RGBA :=
  ⟨255, 0, 0, 255⟩

/-- A concrete all-white 2 by 2 bitmap. -/
def bitmapC10 : Bitmap :=
  { width := 2, height := 2, data := [whiteC10, whiteC10, whiteC10, whiteC10] }

/-! ### Theorems -/

/-- Claim C3: for every correct guess with seconds elapsed s ≥ 0 and rank
r ≥ 1, the base points computed by calculateGuessPoints equal
round(max(1000 − 12.5·s, 100) · m) with m = 1.0 for rank 1, 0.75 for rank 2
and 0.50 for rank ≥ 3, and the awarded points equal
floor(base · mode_points_multiplier); in classic mode s=0,r=1 gives 1000,
s=40,r=1 gives 500, s=80,r=1 gives 100 and s=10,r=2 gives 656. -/
theorem calculateGuessPoints_spec (s r : ℕ) (hr : 1 ≤ r) (mode : GameMode) :
    calculateGuessPoints s r = specBasePoints s r ∧
    applyModePointsMultiplier (calculateGuessPoints s r) mode =
      specAwardedPoints s r mode ∧
    calculateGuessPoints 0 1 = 1000 ∧
    applyModePointsMultiplier (calculateGuessPoints 0 1) .classic = 1000 ∧
    calculateGuessPoints 40 1 = 500 ∧
    applyModePointsMultiplier (calculateGuessPoints 40 1) .classic = 500 ∧
    calculateGuessPoints 80 1 = 100 ∧
    applyModePointsMultiplier (calculateGuessPoints 80 1) .classic = 100 ∧
    calculateGuessPoints 10 2 = 656 ∧
    applyModePointsMultiplier (calculateGuessPoints 10 2) .classic = 656 := by
  have hclassic : ∀ z : ℤ, applyModePointsMultiplier z .classic = z := by
    intro z
    norm_num [applyModePointsMultiplier, pointsMultiplier]
  have h1 : calculateGuessPoints 0 1 = 1000 := by
    norm_num [calculateGuessPoints, jsRound, Int.floor_eq_iff, max_def]
  have h2 : calculateGuessPoints 40 1 = 500 := by
    norm_num [calculateGuessPoints, jsRound, Int.floor_eq_iff, max_def]
  have h3 : calculateGuessPoints 80 1 = 100 := by
    norm_num [calculateGuessPoints, jsRound, Int.floor_eq_iff, max_def]
  have h4 : calculateGuessPoints 10 2 = 656 := by
    norm_num [calculateGuessPoints, jsRound, Int.floor_eq_iff, max_def]
  refine ⟨?_, ?_, h1, by rw [h1, hclassic], h2, by rw [h2, hclassic],
    h3, by rw [h3, hclassic], h4, by rw [h4, hclassic]⟩
  · unfold calculateGuessPoints specBasePoints
    ring_nf
  · unfold applyModePointsMultiplier specAwardedPoints
    unfold calculateGuessPoints specBasePoints
    ring_nf

/-- Witness for C3: the theorem applied at s = 10, r = 2, classic mode. -/
theorem calculateGuessPoints_spec_witness :
    calculateGuessPoints 10 2 = specBasePoints 10 2 := by
  exact (calculateGuessPoints_spec 10 2 (by decide) .classic).1

/-- Claim C8: a guess is judged correct iff guess and target are exactly equal
after both are lowercased, trimmed and stripped of all internal whitespace;
"  Apple " is correct against "apple", "appel" is not. -/
theorem isFuzzyMatch_spec (guess target : String) :
    (isFuzzyMatch guess target = true ↔
      specNormalize guess = specNormalize target) ∧
    isFuzzyMatch "  Apple " "apple" = true ∧
    isFuzzyMatch "appel" "apple" = false := by
  refine ⟨?_, by decide, by decide⟩
  simp [isFuzzyMatch, specNormalize, normalizeGuess]

/-- Any room row written by checkAndEndTurnIfAllGuessed satisfies the
word/turn invariant: the guard demands a non-null current_word and the write
makes turn_ends_at non-null. -/
theorem wordTurnInv_of_checkAndEnd {isHost : Bool} {players : List Player}
    {guesses : List GuessRow} {now : ℤ} {r r' : Room}
    (h : checkAndEndTurnIfAllGuessed isHost players guesses now r = some r') :
    wordTurnInv r' := by
  by_cases hH : isHost = true
  · cases hte : r.turn_ends_at with
    | none => simp [checkAndEndTurnIfAllGuessed, hte, hH] at h
    | some tEnd =>
      cases hcw : r.current_word with
      | none => simp [checkAndEndTurnIfAllGuessed, hte, hcw, hH] at h
      | some w =>
        cases hws : r.word_selected_at with
        | none => simp [checkAndEndTurnIfAllGuessed, hte, hcw, hws, hH] at h
        | some tSel =>
          simp only [checkAndEndTurnIfAllGuessed, hte, hcw, hws, hH,
            Bool.not_true, Bool.false_eq_true, if_false] at h
          split at h
          · exact absurd h (by simp)
          · split at h
            · exact absurd h (by simp)
            · split at h
              · injection h with h
                subst h
                simp [wordTurnInv, hcw]
              · exact absurd h (by simp)
  · simp [checkAndEndTurnIfAllGuessed, hH] at h

/-- Any room row written by nextTurn satisfies the word/turn invariant: both
current_word and turn_ends_at are set to null. -/
theorem wordTurnInv_of_nextTurn {players : List Player} {r r' : Room}
    (h : nextTurn players r = some r') : wordTurnInv r' := by
  cases hcons : sortByTurnOrder players with
  | nil => simp [nextTurn, hcons] at h
  | cons p0 t =>
    simp only [nextTurn, hcons] at h
    split at h
    all_goals
      injection h with h
      subst h
      simp [wordTurnInv]

/-- Claim C1: every reachable room state satisfies the invariant that
current_word is non-null iff turn_ends_at is non-null, and each room-row
mutation (creation, game start, word selection, forced early turn end, turn
advancement, post-finish reset) preserves the invariant. -/
theorem roomWordTurnInvariant (r : Room) (h : ReachableRoom r) :
    wordTurnInv r ∧
    (∀ s, wordTurnInv (createRoom s)) ∧
    (∀ r₁, wordTurnInv (startGame r₁)) ∧
    (∀ r₁ w now, wordTurnInv (selectWord r₁ w now)) ∧
    (∀ isHost players guesses now r₁ r',
      checkAndEndTurnIfAllGuessed isHost players guesses now r₁ = some r' →
      wordTurnInv r₁ → wordTurnInv r') ∧
    (∀ players r₁ r', nextTurn players r₁ = some r' → wordTurnInv r') ∧
    (∀ r₁, wordTurnInv (resetGame r₁)) := by
  refine ⟨?_, fun s => by simp [wordTurnInv, createRoom],
    fun r₁ => by simp [wordTurnInv, startGame],
    fun r₁ w now => by simp [wordTurnInv, selectWord],
    fun _ _ _ _ _ _ hw _ => wordTurnInv_of_checkAndEnd hw,
    fun _ _ _ hw => wordTurnInv_of_nextTurn hw,
    fun r₁ => by simp [wordTurnInv, resetGame]⟩
  induction h with
  | create settings => simp [wordTurnInv, createRoom]
  | start r hr ih => simp [wordTurnInv, startGame]
  | select r word now hr ih => simp [wordTurnInv, selectWord]
  | forceEnd r r' isHost players guesses now hr hw ih =>
    exact wordTurnInv_of_checkAndEnd hw
  | next r r' players hr hw ih => exact wordTurnInv_of_nextTurn hw
  | reset r hr ih => simp [wordTurnInv, resetGame]

/-- Witness for C1: the theorem applied to the freshly created room. -/
theorem roomWordTurnInvariant_witness :
    wordTurnInv (createRoom ⟨80, .classic, 8, 3⟩) :=
  (roomWordTurnInvariant _ (.create ⟨80, .classic, 8, 3⟩)).1

/-- On a list sorted by the turn-order key, find? returns a satisfier of
minimal key. -/
theorem find?_min_of_sortedByTurnOrder (p : Player → Bool) :
    ∀ (l : List Player), List.Sorted (fun a b => turnKey a ≤ turnKey b) l →
    ∀ x, l.find? p = some x → ∀ y ∈ l, p y = true → turnKey x ≤ turnKey y := by
  intro l
  induction l with
  | nil =>
    intro _ x hx
    simp at hx
  | cons a t ih =>
    intro hs x hx y hy hpy
    rcases List.mem_cons.mp hy with rfl | hyt
    · by_cases hpa : p y = true
      · rw [List.find?_cons_of_pos _ hpa] at hx
        injection hx with hx
        subst hx
        exact le_refl _
      · exact absurd hpy hpa
    · by_cases hpa : p a = true
      · rw [List.find?_cons_of_pos _ hpa] at hx
        injection hx with hx
        subst hx
        exact List.rel_of_sorted_cons hs y hyt
      · rw [List.find?_cons_of_neg _ hpa] at hx
        exact ih hs.of_cons x hx y hyt hpy

/-- Claim C2: nextTurn picks as next drawer the smallest turn-order ordinal
strictly greater than the current drawer index when one exists; otherwise it
wraps to the smallest ordinal, increments the round, and finishes the game
when the incremented round exceeds max_rounds; the concrete example (players
at ordinals 0,1,2, drawer ordinal 2, round 3 of 3) ends in status finished. -/
theorem nextTurn_spec (ps : List Player) (r : Room) (hne : ps ≠ []) :
    ∃ r', nextTurn ps r = some r' ∧
      r'.current_word = none ∧ r'.turn_ends_at = none ∧
      ((∃ p ∈ ps, r.current_drawer_index < turnKey p) →
        (∃ q ∈ ps, turnKey q = r'.current_drawer_index ∧
          r.current_drawer_index < turnKey q ∧
          ∀ y ∈ ps, r.current_drawer_index < turnKey y → turnKey q ≤ turnKey y) ∧
        r'.current_round = r.current_round ∧ r'.status = .playing) ∧
      ((∀ p ∈ ps, turnKey p ≤ r.current_drawer_index) →
        (∃ q ∈ ps, turnKey q = r'.current_drawer_index ∧
          ∀ y ∈ ps, turnKey q ≤ turnKey y) ∧
        r'.current_round = r.current_round + 1 ∧
        r'.status = (if r.max_rounds < r.current_round + 1
          then RoomStatus.finished else RoomStatus.playing)) ∧
      (nextTurn playersC2 roomC2).map Room.status = some RoomStatus.finished := by
  have hperm : List.Perm (sortByTurnOrder ps) ps := List.perm_insertionSort _ ps
  have hsorted : List.Sorted (fun a b => turnKey a ≤ turnKey b) (sortByTurnOrder ps) :=
    List.sorted_insertionSort _ ps
  have hsne : sortByTurnOrder ps ≠ [] := by
    intro hnil
    apply hne
    have hlen := hperm.length_eq
    rw [hnil] at hlen
    exact List.eq_nil_of_length_eq_zero (by simpa using hlen.symm)
  obtain ⟨p0, t, hcons⟩ := List.exists_cons_of_ne_nil hsne
  have hsorted' : List.Sorted (fun a b => turnKey a ≤ turnKey b) (p0 :: t) :=
    hcons ▸ hsorted
  have hperm' : List.Perm (p0 :: t) ps := hcons ▸ hperm
  cases hfind : (p0 :: t).find? (fun p => decide (r.current_drawer_index < turnKey p)) with
  | some np =>
    have hnt : nextTurn ps r = some { r with
        current_drawer_index := turnKey np
        status := RoomStatus.playing
        current_word := none
        turn_ends_at := none } := by
      simp only [nextTurn, hcons, hfind]
    refine ⟨_, hnt, rfl, rfl, ?_, ?_, by decide⟩
    · intro _
      refine ⟨⟨np, ?_, rfl, ?_, ?_⟩, rfl, rfl⟩
      · exact hperm'.mem_iff.mp (List.mem_of_find?_eq_some hfind)
      · have := List.find?_some hfind
        simpa using this
      · intro y hy hylt
        exact find?_min_of_sortedByTurnOrder _ _ hsorted' np hfind y
          (hperm'.mem_iff.mpr hy) (by simpa using hylt)
    · intro hall
      have hnp := List.find?_some hfind
      have hmem := hperm'.mem_iff.mp (List.mem_of_find?_eq_some hfind)
      have := hall np hmem
      simp only [decide_eq_true_eq] at hnp
      omega
  | none =>
    have hnt : nextTurn ps r = some { r with
        current_drawer_index := turnKey p0
        current_round := r.current_round + 1
        status := if r.max_rounds < r.current_round + 1
          then RoomStatus.finished else RoomStatus.playing
        current_word := none
        turn_ends_at := none } := by
      simp only [nextTurn, hcons, hfind]
    refine ⟨_, hnt, rfl, rfl, ?_, ?_, by decide⟩
    · intro hx
      obtain ⟨p, hp, hplt⟩ := hx
      have := List.find?_eq_none.mp hfind p (hperm'.mem_iff.mpr hp)
      simp only [decide_eq_true_eq] at this
      omega
    · intro _
      refine ⟨⟨p0, hperm'.mem_iff.mp (List.mem_cons_self p0 t), rfl, ?_⟩, rfl, rfl⟩
      intro y hy
      rcases List.mem_cons.mp (hperm'.mem_iff.mpr hy) with rfl | hyt
      · exact le_refl _
      · exact List.rel_of_sorted_cons hsorted' y hyt

/-- Witness for C2: the theorem applied to the concrete three-player example,
yielding the finished status. -/
theorem nextTurn_spec_witness :
    (nextTurn playersC2 roomC2).map Room.status = some RoomStatus.finished := by
  obtain ⟨r', -, -, -, -, -, hfin⟩ := nextTurn_spec playersC2 roomC2 (by decide)
  exact hfin

/-- Counterexample to claim C5 as stated: in a state with an active,
not-yet-expired turn where only the drawer is connected, every connected
non-drawer player vacuously has a correct guess, yet the check writes
nothing (the code returns early when the guesser set is empty). -/
theorem checkAndEnd_vacuous_counterexample :
    checkAndEndTurnIfAllGuessed true playersC5 [] 1000 roomC5 = none ∧
    roomC5.turn_ends_at = some 60000 ∧
    roomC5.current_word = some "dog" ∧
    roomC5.word_selected_at = some 0 ∧
    (1000 : ℤ) < 60000 ∧
    (∀ p ∈ connectedGuessers playersC5 roomC5.current_drawer_index,
      ∃ g ∈ ([] : List GuessRow), g.player_id = p.id) := by
  refine ⟨by decide, by decide, by decide, by decide, by decide, ?_⟩
  intro p hp
  have hempty : connectedGuessers playersC5 roomC5.current_drawer_index = [] := by
    decide
  rw [hempty] at hp
  exact absurd hp (List.not_mem_nil p)

/-- Claim C5 (amended): the host-only all-guessed check writes nothing when
no turn is active or the deadline has passed; during an active turn it sets
turn_ends_at to the current time iff the set of connected non-drawer players
is non-empty and each of them has a correct guess recorded after
word_selected_at. -/
theorem checkAndEndTurnIfAllGuessed_spec (players : List Player)
    (guesses : List GuessRow) (now : ℤ) (r : Room) :
    (r.turn_ends_at = none ∨ r.current_word = none ∨ r.word_selected_at = none →
      checkAndEndTurnIfAllGuessed true players guesses now r = none) ∧
    (∀ tEnd, r.turn_ends_at = some tEnd → tEnd ≤ now →
      checkAndEndTurnIfAllGuessed true players guesses now r = none) ∧
    (∀ tEnd w tSel, r.turn_ends_at = some tEnd → r.current_word = some w →
      r.word_selected_at = some tSel → now < tEnd →
      ((connectedGuessers players r.current_drawer_index ≠ [] ∧
        (∀ p ∈ connectedGuessers players r.current_drawer_index,
          ∃ g ∈ guesses, g.player_id = p.id ∧ g.is_correct = true ∧
            tSel < g.guessed_at)) →
        checkAndEndTurnIfAllGuessed true players guesses now r =
          some { r with turn_ends_at := some now }) ∧
      ((∃ p ∈ connectedGuessers players r.current_drawer_index,
          ∀ g ∈ guesses, ¬(g.player_id = p.id ∧ g.is_correct = true ∧
            tSel < g.guessed_at)) →
        checkAndEndTurnIfAllGuessed true players guesses now r = none)) := by
  refine ⟨?_, ?_, ?_⟩
  · intro hnone
    cases hte : r.turn_ends_at <;> cases hcw : r.current_word <;>
      cases hws : r.word_selected_at <;> simp_all [checkAndEndTurnIfAllGuessed]
  · intro tEnd hte hle
    cases hcw : r.current_word <;> cases hws : r.word_selected_at <;>
      simp_all [checkAndEndTurnIfAllGuessed]
  · intro tEnd w tSel hte hcw hws hnow
    have hne' : ¬ tEnd ≤ now := not_le.mpr hnow
    constructor
    · rintro ⟨hane, hall⟩
      simp only [checkAndEndTurnIfAllGuessed, hte, hcw, hws, Bool.not_true,
        Bool.false_eq_true, if_false]
      rw [if_neg hne']
      rw [if_neg (by
        simp only [List.isEmpty_eq_true, List.map_eq_nil_iff]
        exact fun h => hane h)]
      rw [if_pos ?hall]
      case hall =>
        simp only [List.all_eq_true, List.mem_map]
        rintro i ⟨p, hp, rfl⟩
        obtain ⟨g, hg, hgid, hgc, hgt⟩ := hall p hp
        have : p.id ∈ (guesses.filter
            (fun g => g.is_correct && decide (tSel < g.guessed_at))).map
            (·.player_id) := by
          refine List.mem_map.mpr ⟨g, List.mem_filter.mpr ⟨hg, ?_⟩, hgid⟩
          simp [hgc, hgt]
        simpa [List.contains, List.elem_iff] using this
    · rintro ⟨p, hp, hnog⟩
      simp only [checkAndEndTurnIfAllGuessed, hte, hcw, hws, Bool.not_true,
        Bool.false_eq_true, if_false]
      rw [if_neg hne']
      split
      · rfl
      · rw [if_neg ?hnall]
        case hnall =>
          simp only [List.all_eq_true, List.mem_map, not_forall]
          refine ⟨p.id, ⟨p, hp, rfl⟩, ?_⟩
          simp only [List.contains, List.elem_iff, List.mem_map, List.mem_filter]
          rintro ⟨g, ⟨hg, hgprop⟩, hgid⟩
          simp only [Bool.and_eq_true, decide_eq_true_eq] at hgprop
          exact hnog g hg ⟨hgid, hgprop.1, hgprop.2⟩

/-- Witness for C5: the amended theorem applied to a state with one connected
guesser who has a correct guess; the turn is force-ended. -/
theorem checkAndEndTurnIfAllGuessed_spec_witness :
    checkAndEndTurnIfAllGuessed true playersC5w guessesC5w 1000 roomC5 =
      some { roomC5 with turn_ends_at := some 1000 } := by
  have h := (checkAndEndTurnIfAllGuessed_spec playersC5w guessesC5w 1000
    roomC5).2.2 60000 "dog" 0 rfl rfl rfl (by decide)
  exact h.1 ⟨by decide, by decide⟩

/-- The head of the sorted online-player list is an online player row of
minimal host key. -/
theorem head_onlineSorted_spec (rawPlayers : List Player) (onlineIds : List ℕ)
    {h : Player} (hh : (onlineSortedPlayers rawPlayers onlineIds).head? = some h) :
    h ∈ rawPlayers ∧ h.id ∈ onlineIds ∧
      ∀ q ∈ rawPlayers, q.id ∈ onlineIds → hostKey h ≤ hostKey q := by
  have hperm : List.Perm (onlineSortedPlayers rawPlayers onlineIds)
      (rawPlayers.filter (fun p => decide (p.id ∈ onlineIds))) :=
    List.perm_insertionSort _ _
  have hsorted : List.Sorted (fun a b => hostKey a ≤ hostKey b)
      (onlineSortedPlayers rawPlayers onlineIds) :=
    List.sorted_insertionSort _ _
  obtain ⟨t, hcons⟩ : ∃ t, onlineSortedPlayers rawPlayers onlineIds = h :: t := by
    cases hc : onlineSortedPlayers rawPlayers onlineIds with
    | nil => rw [hc] at hh; exact absurd hh (by simp)
    | cons a t =>
      rw [hc] at hh
      simp only [List.head?_cons, Option.some.injEq] at hh
      exact ⟨t, by rw [hh]⟩
  have hmemf : h ∈ rawPlayers.filter (fun p => decide (p.id ∈ onlineIds)) :=
    hperm.mem_iff.mp (hcons ▸ List.mem_cons_self h t)
  have hmem := List.mem_filter.mp hmemf
  refine ⟨hmem.1, by simpa using hmem.2, ?_⟩
  intro q hq hqon
  have hqf : q ∈ rawPlayers.filter (fun p => decide (p.id ∈ onlineIds)) :=
    List.mem_filter.mpr ⟨hq, by simpa using hqon⟩
  have hqs : q ∈ h :: t := hcons ▸ hperm.mem_iff.mpr hqf
  rcases List.mem_cons.mp hqs with rfl | hqt
  · exact le_refl _
  · exact List.rel_of_sorted_cons (hcons ▸ hsorted) q hqt

/-- Rows whose id was targeted by a setHost write carry the written value. -/
theorem setHost_self {players : List Player} {pid : ℕ} {v : Bool} {p : Player}
    (hp : p ∈ setHost players pid v) (hid : p.id = pid) : p.is_host = v := by
  obtain ⟨q, hq, hqe⟩ := List.mem_map.mp hp
  by_cases hc : q.id = pid
  · rw [if_pos hc] at hqe
    rw [← hqe]
  · rw [if_neg hc] at hqe
    rw [← hqe] at hid
    exact absurd hid hc

/-- Claim C4: in a presence state where every host-flagged row is absent from
the present set (in particular when none is flagged), a present client that
holds the strictly lowest turn-order key among present players issues exactly
the self-promotion write followed by the demotion write for the stale host
row (when one exists); running these with a failed demotion still leaves the
client's row promoted; and a client that is not the lowest-key present player
issues no write at all. -/
theorem hostFailover_spec (rawPlayers : List Player) (onlineIds : List ℕ)
    (me : ℕ) (meRow : Player)
    (hfind : rawPlayers.find? (fun p => p.id = me) = some meRow)
    (hmeUnique : ∀ p ∈ rawPlayers, p.id = me → p = meRow)
    (hmeOnline : me ∈ onlineIds)
    (hHostsOffline : ∀ p ∈ rawPlayers, p.is_host = true → p.id ∉ onlineIds) :
    ((∀ p ∈ rawPlayers, p.id ∈ onlineIds → p.id ≠ me → hostKey meRow < hostKey p) →
      hostFailoverWrites rawPlayers onlineIds me =
        (me, true) :: (match rawPlayers.find? (·.is_host) with
          | some h => [(h.id, false)]
          | none => []) ∧
      runHostTransfer rawPlayers (hostFailoverWrites rawPlayers onlineIds me)
        true false = setHost rawPlayers me true ∧
      (∀ p ∈ setHost rawPlayers me true, p.id = me → p.is_host = true)) ∧
    ((∃ q ∈ rawPlayers, q.id ∈ onlineIds ∧ hostKey q < hostKey meRow) →
      hostFailoverWrites rawPlayers onlineIds me = []) := by
  have hmeId : meRow.id = me := by
    have := List.find?_some hfind
    simpa using this
  have hmeMem : meRow ∈ rawPlayers := List.mem_of_find?_eq_some hfind
  have hre : rawPlayers.isEmpty = false := by
    cases rawPlayers with
    | nil => exact absurd hmeMem (List.not_mem_nil meRow)
    | cons a t => rfl
  have hoe : onlineIds.isEmpty = false := by
    cases onlineIds with
    | nil => exact absurd hmeOnline (List.not_mem_nil me)
    | cons a t => rfl
  have hmeNotHost : meRow.is_host = false := by
    cases hmh : meRow.is_host with
    | false => rfl
    | true => exact absurd (hmeId ▸ hmeOnline) (hHostsOffline meRow hmeMem hmh)
  have hmeOnFilter : meRow ∈ rawPlayers.filter (fun p => decide (p.id ∈ onlineIds)) :=
    List.mem_filter.mpr ⟨hmeMem, by simp [hmeId, hmeOnline]⟩
  have hsne : onlineSortedPlayers rawPlayers onlineIds ≠ [] := by
    intro hnil
    have hperm : List.Perm (onlineSortedPlayers rawPlayers onlineIds)
        (rawPlayers.filter (fun p => decide (p.id ∈ onlineIds))) :=
      List.perm_insertionSort _ _
    rw [hnil] at hperm
    exact absurd (hperm.mem_iff.mpr hmeOnFilter) (List.not_mem_nil meRow)
  obtain ⟨nh, hhead⟩ : ∃ nh, (onlineSortedPlayers rawPlayers onlineIds).head? = some nh := by
    cases hc : onlineSortedPlayers rawPlayers onlineIds with
    | nil => exact absurd hc hsne
    | cons a t => exact ⟨a, rfl⟩
  obtain ⟨hnhMem, hnhOn, hnhMin⟩ := head_onlineSorted_spec rawPlayers onlineIds hhead
  have hguard : ∀ isOn : Bool, isOn = false →
      ((Option.isNone (rawPlayers.find? (·.is_host)) || !isOn) &&
        decide (me ∈ onlineIds)) = true := by
    intro isOn hisOn
    simp [hisOn, hmeOnline]
  constructor
  · intro hlow
    have hnhMe : nh.id = me := by
      by_contra hne
      exact absurd (hnhMin meRow hmeMem (hmeId ▸ hmeOnline))
        (not_le.mpr (hlow nh hnhMem hnhOn hne))
    have hwrites : hostFailoverWrites rawPlayers onlineIds me =
        (me, true) :: (match rawPlayers.find? (·.is_host) with
          | some h => [(h.id, false)]
          | none => []) := by
      cases hch : rawPlayers.find? (·.is_host) with
      | some h =>
        have hhOff : h.id ∉ onlineIds :=
          hHostsOffline h (List.mem_of_find?_eq_some hch)
            (by simpa using List.find?_some hch)
        simp only [hostFailoverWrites, hre, hoe, hch, hfind, hhead,
          Bool.false_eq_true, if_false]
        rw [if_pos (by simp [hhOff, hmeOnline])]
        rw [if_pos ⟨hnhMe, hmeNotHost⟩]
      | none =>
        simp only [hostFailoverWrites, hre, hoe, hch, hfind, hhead,
          Bool.false_eq_true, if_false]
        rw [if_pos (by simp [hmeOnline])]
        rw [if_pos ⟨hnhMe, hmeNotHost⟩]
    refine ⟨hwrites, ?_, fun p hp hpid => setHost_self hp hpid⟩
    rw [hwrites]
    cases hch : rawPlayers.find? (·.is_host) <;> rfl
  · rintro ⟨q, hq, hqon, hqlt⟩
    have hnhNotMe : ¬(nh.id = me ∧ meRow.is_host = false) := by
      rintro ⟨hnhMe, -⟩
      have : nh = meRow := hmeUnique nh hnhMem hnhMe
      rw [this] at hnhMin
      exact absurd (hnhMin q hq hqon) (not_le.mpr hqlt)
    cases hch : rawPlayers.find? (·.is_host) with
    | some h =>
      have hhOff : h.id ∉ onlineIds :=
        hHostsOffline h (List.mem_of_find?_eq_some hch)
          (by simpa using List.find?_some hch)
      simp only [hostFailoverWrites, hre, hoe, hch, hfind, hhead,
        Bool.false_eq_true, if_false]
      rw [if_pos (by simp [hhOff, hmeOnline])]
      rw [if_neg hnhNotMe]
    | none =>
      simp only [hostFailoverWrites, hre, hoe, hch, hfind, hhead,
        Bool.false_eq_true, if_false]
      rw [if_pos (by simp [hmeOnline])]
      rw [if_neg hnhNotMe]

/-- Witness for C4: the theorem applied to the concrete state where the
flagged host (player 1) is offline and player 2 is the lowest-key present
player: player 2 promotes itself and demotes player 1, and the promotion
survives a failed demotion. -/
theorem hostFailover_spec_witness :
    hostFailoverWrites playersC4 onlineC4 2 = [(2, true), (1, false)] ∧
    (∀ p ∈ setHost playersC4 2 true, p.id = 2 → p.is_host = true) := by
  have h := (hostFailover_spec playersC4 onlineC4 2 ⟨2, some 1, false, true⟩
    (by decide) (by decide) (by decide) (by decide)).1 (by decide)
  refine ⟨?_, h.2.2⟩
  have h1 := h.1
  simpa using h1

/-- Claim C6: in relay mode the segment length is
floor(effective_draw_time / 3); after e elapsed seconds the active segment is
min(floor(e / L), passes − 1); the effective drawer is the player whose
turn-order ordinal equals (base + segment) mod player_count, with fallback to
the player at that index of the turn-order-sorted list; with draw_time = 90
the segment length is 30 and at e = 45 the segment is 1. -/
theorem relay_spec (settings : RoomSettings) (hmode : settings.game_mode = .relay)
    (start tEnd : ℤ) (e : ℕ) (hL : 0 < getRelaySegmentTime settings) :
    getRelaySegmentTime settings = getEffectiveDrawTime settings / 3 ∧
    getRelayDrawerIndex settings (some start) (some tEnd) (start + (e : ℤ) * 1000) =
      min (e / getRelaySegmentTime settings) (relayPasses .relay - 1) ∧
    (∀ (players : List Player) (base seg : ℕ) (p : Player),
      players ≠ [] → p ∈ players →
      p.turn_order = some ((base + seg) % players.length) →
      (∀ q ∈ players, q.turn_order = some ((base + seg) % players.length) → q = p) →
      getRelayDrawerId players base seg = some p.id) ∧
    (∀ (players : List Player) (base seg : ℕ),
      players ≠ [] →
      (∀ q ∈ players, q.turn_order ≠ some ((base + seg) % players.length)) →
      getRelayDrawerId players base seg =
        ((sortByTurnOrder players).get? ((base + seg) % players.length)).map (·.id)) ∧
    getRelaySegmentTime ⟨90, .relay, 8, 3⟩ = 30 ∧
    getRelayDrawerIndex ⟨90, .relay, 8, 3⟩ (some 0) (some 90000) 45000 = 1 := by
  have heff90 : getEffectiveDrawTime ⟨90, .relay, 8, 3⟩ = 90 := by
    norm_num [getEffectiveDrawTime, timeMultiplier]
    decide
  have hseg90 : getRelaySegmentTime ⟨90, .relay, 8, 3⟩ = 30 := by
    rw [getRelaySegmentTime, heff90]
    decide
  refine ⟨?_, ?_, ?_, ?_, hseg90, ?_⟩
  · rw [getRelaySegmentTime, hmode]
    rfl
  · simp only [getRelayDrawerIndex, hmode, if_pos]
    congr 1
    have h1 : start + (e : ℤ) * 1000 - start = (e : ℤ) * 1000 := by ring
    rw [h1, max_eq_right (by positivity)]
    have h2 : ((e : ℤ) * 1000) / 1000 = (e : ℤ) := by omega
    rw [h2, Int.toNat_natCast]
  · intro players base seg p hne hp hporder huniq
    have hre : players.isEmpty = false := by
      cases players with
      | nil => exact absurd rfl hne
      | cons a t => rfl
    have hlen : (sortByTurnOrder players).length = players.length :=
      (List.perm_insertionSort _ players).length_eq
    have hperm : List.Perm (sortByTurnOrder players) players :=
      List.perm_insertionSort _ players
    simp only [getRelayDrawerId, hre, Bool.false_eq_true, if_false, hlen]
    cases hf : (sortByTurnOrder players).find?
        (fun q => q.turn_order = some ((base + seg) % players.length)) with
    | some d =>
      have hdord : d.turn_order = some ((base + seg) % players.length) := by
        have := List.find?_some hf
        simpa using this
      have hdmem : d ∈ players := hperm.mem_iff.mp (List.mem_of_find?_eq_some hf)
      rw [huniq d hdmem hdord]
    | none =>
      have := List.find?_eq_none.mp hf p (hperm.mem_iff.mpr hp)
      simp only [decide_eq_true_eq] at this
      exact absurd hporder this
  · intro players base seg hne hnomatch
    have hre : players.isEmpty = false := by
      cases players with
      | nil => exact absurd rfl hne
      | cons a t => rfl
    have hlen : (sortByTurnOrder players).length = players.length :=
      (List.perm_insertionSort _ players).length_eq
    have hperm : List.Perm (sortByTurnOrder players) players :=
      List.perm_insertionSort _ players
    have hlpos : 0 < players.length := List.length_pos.mpr hne
    have hf : (sortByTurnOrder players).find?
        (fun q => q.turn_order = some ((base + seg) % players.length)) = none := by
      rw [List.find?_eq_none]
      intro x hx
      simp only [decide_eq_true_eq]
      exact hnomatch x (hperm.mem_iff.mp hx)
    simp only [getRelayDrawerId, hre, Bool.false_eq_true, if_false, hlen, hf]
    rw [Nat.mod_eq_of_lt (Nat.mod_lt _ hlpos)]
  · simp only [getRelayDrawerIndex, if_pos, hseg90]
    decide

/-- Witness for C6: the theorem applied to the concrete relay configuration
(draw_time 90, elapsed 45 s). -/
theorem relay_spec_witness :
    getRelaySegmentTime ⟨90, .relay, 8, 3⟩ = 30 ∧
    getRelayDrawerIndex ⟨90, .relay, 8, 3⟩ (some 0) (some 90000) 45000 = 1 := by
  have h := relay_spec ⟨90, .relay, 8, 3⟩ rfl 0 90000 45
    (by norm_num [getRelaySegmentTime, getEffectiveDrawTime, timeMultiplier,
      relayPasses]; decide)
  exact ⟨h.2.2.2.2.1, h.2.2.2.2.2⟩

/-- Membership is preserved backwards through a position swap. -/
theorem mem_of_mem_listSwap {α : Type} {l : List α} {i j : ℕ} {x : α}
    (h : x ∈ listSwap l i j) : x ∈ l := by
  unfold listSwap at h
  split at h
  · rename_i a b ha hb
    rcases List.mem_or_eq_of_mem_set h with h1 | rfl
    · rcases List.mem_or_eq_of_mem_set h1 with h2 | rfl
      · exact h2
      · exact List.get?_mem hb
    · exact List.get?_mem ha
  · exact h

/-- Membership is preserved backwards through the Fisher-Yates loop. -/
theorem mem_of_mem_fyLoop {α : Type} :
    ∀ (n : ℕ) (rand : List ℕ) (l : List α) (x : α),
    x ∈ fyLoop l n rand → x ∈ l := by
  intro n
  induction n with
  | zero =>
    intro rand l x h
    simpa [fyLoop] using h
  | succ i ih =>
    intro rand l x h
    cases rand with
    | nil => simpa [fyLoop] using h
    | cons r rest =>
      simp only [fyLoop] at h
      exact mem_of_mem_listSwap (ih rest _ x h)

/-- Counterexample to claim C7 as stated: with shuffle randomness drawing
j = 0 then j = 1, the shuffled choice list starts with the hard candidate,
so the auto-selected word on timeout is the hard one even though the easy
(lowest-difficulty) candidate was offered. -/
theorem wordSelection_counterexample :
    autoSelectedChoice (getWordChoices [0, 1] "cat" "lighthouse" "freedom") =
      some ⟨"freedom", .hard, 100⟩ ∧
    (⟨"cat", .easy, 25⟩ : WordChoice) ∈
      getWordChoices [0, 1] "cat" "lighthouse" "freedom" ∧
    difficultyRank .easy < difficultyRank .hard := by
  refine ⟨by decide, by decide, by decide⟩

/-- Claim C7 (amended): the word-selection deadline is 5 s in speed mode and
10 s in every other mode; on timeout the first candidate of the shuffled
choice list is auto-selected, and that candidate is always one of the three
offered (easy/medium/hard) candidates — not necessarily the lowest-difficulty
one. -/
theorem wordSelection_spec (mode : GameMode) (rand : List ℕ)
    (we wm wh : String) :
    getWordSelectionTime .speed = 5 ∧
    (mode ≠ .speed → getWordSelectionTime mode = 10) ∧
    autoSelectedChoice (getWordChoices rand we wm wh) =
      (getWordChoices rand we wm wh).head? ∧
    (∀ c, autoSelectedChoice (getWordChoices rand we wm wh) = some c →
      c ∈ preShuffleChoices we wm wh) := by
  refine ⟨rfl, ?_, rfl, ?_⟩
  · intro hne
    cases mode with
    | classic => rfl
    | speed => exact absurd rfl hne
    | relay => rfl
  · intro c hc
    have hmem : c ∈ getWordChoices rand we wm wh := by
      cases hg : getWordChoices rand we wm wh with
      | nil => rw [autoSelectedChoice, hg] at hc; exact absurd hc (by simp)
      | cons a t =>
        rw [autoSelectedChoice, hg] at hc
        simp only [List.head?_cons, Option.some.injEq] at hc
        rw [← hc]
        exact List.mem_cons_self a t
    exact mem_of_mem_fyLoop _ _ _ _ hmem

/-- Witness for C7: the amended theorem applied in classic mode. -/
theorem wordSelection_spec_witness :
    getWordSelectionTime .speed = 5 ∧ getWordSelectionTime .classic = 10 := by
  have h := wordSelection_spec .classic [0, 1] "cat" "lighthouse" "freedom"
  exact ⟨h.1, h.2.1 (by decide)⟩

/-- Claim C9 (code bug): a joining player is assigned turn_order = count of
existing players, but after a kick this rule duplicates an existing ordinal:
join 1, join 2, kick 1, join 3 leaves players 2 and 3 both at turn_order 1. -/
theorem turnOrderDuplicate_bug :
    lobbyStep 8 [⟨1, 0⟩] (.join 2) = [⟨1, 0⟩, ⟨2, 1⟩] ∧
    runLobby 8 [.join 1, .join 2, .leave 1, .join 3] = [⟨2, 1⟩, ⟨3, 1⟩] ∧
    ¬ ((runLobby 8 [.join 1, .join 2, .leave 1, .join 3]).map
        (·.turn_order)).Nodup := by
  refine ⟨by decide, by decide, by decide⟩

/-- The seed pixel index is inside the buffer of a width-by-height canvas. -/
theorem pixPos_lt {width height px py : ℕ} (hx : px < width) (hy : py < height) :
    pixPos width px py < width * height := by
  have h1 : py * width + px < (py + 1) * width := by
    rw [Nat.succ_mul]
    omega
  have h2 : (py + 1) * width ≤ height * width :=
    Nat.mul_le_mul_right width (by omega)
  calc pixPos width px py = py * width + px := rfl
  _ < (py + 1) * width := h1
  _ ≤ height * width := h2
  _ = width * height := Nat.mul_comm height width

/-- Two pixel indices in the same column with different rows differ. -/
theorem pixPos_row_ne {width x : ℕ} (hw : 0 < width) {y1 y2 : ℕ}
    (h : y1 ≠ y2) : pixPos width x y1 ≠ pixPos width x y2 := by
  simp only [pixPos]
  intro he
  have he2 : y1 * width = y2 * width := by omega
  exact h (Nat.eq_of_mul_eq_mul_right hw he2)

/-- Writing another position does not change a pixel's match status. -/
theorem matchColor_set_ne {data : List RGBA} {v target : RGBA} {p q : ℕ}
    (h : p ≠ q) :
    matchColor (data.set q v) target p = matchColor data target p := by
  simp only [matchColor]
  rw [List.get?_set_ne v data (Ne.symm h)]

/-- The downward pass only ever writes the fill color: each pixel of the
result either carries the fill color or its original value. -/
theorem downWalk_data_get (width height : ℕ) (target fill : RGBA) (x : ℕ)
    (pos : ℕ) :
    ∀ (y : ℕ) (data : List RGBA) (stack : List (ℕ × ℕ)) (rl rr : Bool),
    (downWalk width height target fill x y data stack rl rr).1.get? pos =
      some fill ∨
    (downWalk width height target fill x y data stack rl rr).1.get? pos =
      data.get? pos := by
  intro y data stack rl rr
  induction y, data, stack, rl, rr using downWalk.induct width height target fill x with
  | case1 y data stack rl rr hc d1 lft rgt ih =>
    rw [downWalk, dif_pos hc]
    rcases ih with h1 | h1
    · exact Or.inl h1
    · by_cases hpos : pos = pixPos width x y
      · refine Or.inl (h1.trans ?_)
        have hlt : pixPos width x y < data.length := by
          have hm := hc.2
          simp only [matchColor, decide_eq_true_eq] at hm
          exact (List.get?_eq_some.mp hm).1
        show (colorPixel data fill (pixPos width x y)).get? pos = some fill
        rw [hpos]
        simp only [colorPixel]
        exact List.get?_set_eq_of_lt fill hlt
      · refine Or.inr (h1.trans ?_)
        show (colorPixel data fill (pixPos width x y)).get? pos = data.get? pos
        simp only [colorPixel]
        exact List.get?_set_ne fill data (fun he => hpos he.symm)
  | case2 y data stack rl rr hc =>
    rw [downWalk, dif_neg hc]
    exact Or.inr rfl

/-- A pixel already carrying the fill color still carries it after the
downward pass. -/
theorem downWalk_preserves_fill (width height : ℕ) (target fill : RGBA)
    (x pos y : ℕ) (data : List RGBA) (stack : List (ℕ × ℕ)) (rl rr : Bool)
    (h : data.get? pos = some fill) :
    (downWalk width height target fill x y data stack rl rr).1.get? pos =
      some fill := by
  rcases downWalk_data_get width height target fill x pos y data stack rl rr
    with h1 | h1
  · exact h1
  · rw [h1, h]

/-- The downward pass colors every pixel of a matching vertical run that
starts at its start row and stays inside the canvas. -/
theorem downWalk_colors (width height : ℕ) (target fill : RGBA) (x : ℕ)
    (hw : 0 < width) :
    ∀ (k y : ℕ) (data : List RGBA) (stack : List (ℕ × ℕ)) (rl rr : Bool),
    (∀ i, i ≤ k → matchColor data target (pixPos width x (y + i)) = true) →
    y + k < height →
    (downWalk width height target fill x y data stack rl rr).1.get?
      (pixPos width x (y + k)) = some fill := by
  intro k
  induction k with
  | zero =>
    intro y data stack rl rr hmatch hlt
    have hm0 : matchColor data target (pixPos width x y) = true := by
      simpa using hmatch 0 (le_refl 0)
    have hc : y < height ∧ matchColor data target (pixPos width x y) = true :=
      ⟨by omega, hm0⟩
    rw [downWalk, dif_pos hc]
    have hlen : pixPos width x y < data.length := by
      simp only [matchColor, decide_eq_true_eq] at hm0
      exact (List.get?_eq_some.mp hm0).1
    simp only [Nat.add_zero]
    apply downWalk_preserves_fill
    simp only [colorPixel]
    exact List.get?_set_eq_of_lt fill hlen
  | succ k ih =>
    intro y data stack rl rr hmatch hlt
    have hm0 : matchColor data target (pixPos width x y) = true := by
      simpa using hmatch 0 (by omega)
    have hc : y < height ∧ matchColor data target (pixPos width x y) = true :=
      ⟨by omega, hm0⟩
    rw [downWalk, dif_pos hc]
    have harith : y + (k + 1) = y + 1 + k := by omega
    rw [harith]
    apply ih
    · intro i hi
      have hne : pixPos width x (y + 1 + i) ≠ pixPos width x y :=
        pixPos_row_ne hw (by omega)
      have hmi := hmatch (i + 1) (by omega)
      have harith2 : y + (i + 1) = y + 1 + i := by omega
      rw [harith2] at hmi
      simp only [colorPixel]
      rw [matchColor_set_ne hne]
      exact hmi
    · omega

/-- The upward scan takes at least one step when the popped pixel matches. -/
theorem upSteps_pos (data : List RGBA) (target : RGBA) (width x y : ℕ)
    (h : matchColor data target (pixPos width x y) = true) :
    0 < upSteps data target width x y := by
  cases y with
  | zero => simp [upSteps, h]
  | succ n => simp [upSteps, h]

/-- The upward scan never leaves the canvas. -/
theorem upSteps_le (data : List RGBA) (target : RGBA) (width x : ℕ) :
    ∀ y, upSteps data target width x y ≤ y + 1 := by
  intro y
  induction y with
  | zero =>
    rw [upSteps]
    split <;> omega
  | succ n ih =>
    rw [upSteps]
    split <;> omega

/-- Every row passed by the upward scan matches the target. -/
theorem upSteps_matches (data : List RGBA) (target : RGBA) (width x : ℕ) :
    ∀ y i, i < upSteps data target width x y →
    matchColor data target (pixPos width x (y - i)) = true := by
  intro y
  induction y with
  | zero =>
    intro i hi
    rw [upSteps] at hi
    split at hi
    · rename_i hm
      have : i = 0 := by omega
      subst this
      exact hm
    · omega
  | succ n ih =>
    intro i hi
    rw [upSteps] at hi
    split at hi
    · rename_i hm
      cases i with
      | zero => exact hm
      | succ j =>
        have : n + 1 - (j + 1) = n - j := by omega
        rw [this]
        exact ih j (by omega)
    · omega

/-- Processing a popped entry whose pixel matches the target colors that
pixel. -/
theorem processPop_seed (width height : ℕ) (target fill : RGBA)
    (data : List RGBA) (stack : List (ℕ × ℕ)) (x y : ℕ)
    (hw : 0 < width) (hy : y < height)
    (hm : matchColor data target (pixPos width x y) = true) :
    (processPop width height target fill data stack x y).1.get?
      (pixPos width x y) = some fill := by
  have hk1 : 0 < upSteps data target width x y :=
    upSteps_pos data target width x y hm
  have hk2 : upSteps data target width x y ≤ y + 1 :=
    upSteps_le data target width x y
  rw [processPop]
  have hy0 : y + 1 - upSteps data target width x y +
      (upSteps data target width x y - 1) = y := by omega
  rw [show pixPos width x y = pixPos width x
      (y + 1 - upSteps data target width x y +
        (upSteps data target width x y - 1)) by rw [hy0]]
  apply downWalk_colors width height target fill x hw
  · intro i hi
    have hj : upSteps data target width x y - 1 - i <
        upSteps data target width x y := by omega
    have hmj := upSteps_matches data target width x y
      (upSteps data target width x y - 1 - i) hj
    have harith : y - (upSteps data target width x y - 1 - i) =
        y + 1 - upSteps data target width x y + i := by omega
    rw [harith] at hmj
    exact hmj
  · omega

/-- Processing a popped entry only ever writes the fill color. -/
theorem processPop_data_get (width height : ℕ) (target fill : RGBA)
    (pos : ℕ) (data : List RGBA) (stack : List (ℕ × ℕ)) (x y : ℕ) :
    (processPop width height target fill data stack x y).1.get? pos =
      some fill ∨
    (processPop width height target fill data stack x y).1.get? pos =
      data.get? pos := by
  rw [processPop]
  exact downWalk_data_get width height target fill x pos _ data stack
    false false

/-- The stack loop only ever writes the fill color. -/
theorem floodLoop_data_get (width height : ℕ) (target fill : RGBA)
    (pos : ℕ) :
    ∀ (fuel : ℕ) (stack : List (ℕ × ℕ)) (data : List RGBA),
    (floodLoop width height target fill fuel stack data).1.get? pos =
      some fill ∨
    (floodLoop width height target fill fuel stack data).1.get? pos =
      data.get? pos := by
  intro fuel
  induction fuel with
  | zero =>
    intro stack data
    exact Or.inr rfl
  | succ n ih =>
    intro stack data
    cases stack with
    | nil => exact Or.inr rfl
    | cons hd rest =>
      obtain ⟨x, y⟩ := hd
      simp only [floodLoop]
      rcases ih (processPop width height target fill data rest x y).2
          (processPop width height target fill data rest x y).1 with h1 | h1
      · exact Or.inl h1
      · rcases processPop_data_get width height target fill pos data rest x y
          with h2 | h2
        · exact Or.inl (h1.trans h2)
        · exact Or.inr (h1.trans h2)

/-- The stack loop processes at most as many entries as it has fuel; the
fill invocation passes fuel width·height + 1, mirroring the break once the
iteration counter exceeds MAX_ITERATIONS = width·height. -/
theorem floodLoop_count_le (width height : ℕ) (target fill : RGBA) :
    ∀ (fuel : ℕ) (stack : List (ℕ × ℕ)) (data : List RGBA),
    (floodLoop width height target fill fuel stack data).2 ≤ fuel := by
  intro fuel
  induction fuel with
  | zero =>
    intro stack data
    exact le_refl 0
  | succ n ih =>
    intro stack data
    cases stack with
    | nil => simp [floodLoop]
    | cons hd rest =>
      obtain ⟨x, y⟩ := hd
      simp only [floodLoop]
      have := ih (processPop width height target fill data rest x y).2
        (processPop width height target fill data rest x y).1
      omega

/-- After a full fill run started at a matching seed, the seed pixel carries
the fill color. -/
theorem floodLoop_seed (width height : ℕ) (target fill : RGBA) (px py : ℕ)
    (data : List RGBA) (fuel : ℕ) (hw : 0 < width) (hpy : py < height)
    (hm : matchColor data target (pixPos width px py) = true) :
    (floodLoop width height target fill (fuel + 1) [(px, py)] data).1.get?
      (pixPos width px py) = some fill := by
  simp only [floodLoop]
  have hstep := processPop_seed width height target fill data [] px py hw hpy hm
  rcases floodLoop_data_get width height target fill (pixPos width px py) fuel
      (processPop width height target fill data [] px py).2
      (processPop width height target fill data [] px py).1 with h1 | h1
  · exact h1
  · rw [h1, hstep]

/-- floodFill is the identity when the seed pixel already carries the fill
color (including out-of-bounds seeds). -/
theorem floodFill_noop {bm : Bitmap} {px py : ℕ} {fill : RGBA}
    (h : bm.data.get? (pixPos bm.width px py) = some fill) :
    floodFill bm px py fill = bm := by
  have h2 : bm.data[pixPos bm.width px py]? = some fill := by
    rw [← List.get?_eq_getElem?]
    exact h
  by_cases hb : px < bm.width ∧ py < bm.height <;>
    simp [floodFill, hb, h2]

/-- Claim C10: flood fill is a no-op when the seed pixel already carries the
resolved fill color, hence applying floodFill twice with the same seed and
fill yields the same bitmap as applying it once; and the scanline loop
processes at most width·height + 1 stack entries (the source's iteration
counter breaks once it exceeds MAX_ITERATIONS = width·height). -/
theorem floodFill_idempotent (bm : Bitmap) (px py : ℕ) (fill : RGBA)
    (hwf : bm.data.length = bm.width * bm.height) :
    (∀ target, bm.data.get? (pixPos bm.width px py) = some target →
      target = fill → floodFill bm px py fill = bm) ∧
    floodFill (floodFill bm px py fill) px py fill = floodFill bm px py fill ∧
    (floodFill bm px py fill).width = bm.width ∧
    (floodFill bm px py fill).height = bm.height ∧
    (∀ (target : RGBA) (stack : List (ℕ × ℕ)) (data : List RGBA),
      (floodLoop bm.width bm.height target fill
        (bm.width * bm.height + 1) stack data).2 ≤
        bm.width * bm.height + 1) := by
  have hWH : (floodFill bm px py fill).width = bm.width ∧
      (floodFill bm px py fill).height = bm.height := by
    by_cases hb : px < bm.width ∧ py < bm.height
    · cases hg : bm.data[pixPos bm.width px py]? with
      | none => constructor <;> simp [floodFill, hb, hg]
      | some t =>
        by_cases hf : t = fill <;> constructor <;>
          simp [floodFill, hb, hg, hf]
    · constructor <;> simp [floodFill, hb]
  have hguard : ∀ target, bm.data.get? (pixPos bm.width px py) = some target →
      target = fill → floodFill bm px py fill = bm := by
    intro target ht hf
    subst hf
    exact floodFill_noop ht
  have hidem : floodFill (floodFill bm px py fill) px py fill =
      floodFill bm px py fill := by
    by_cases hb : px < bm.width ∧ py < bm.height
    · cases hg : bm.data.get? (pixPos bm.width px py) with
      | none =>
        exfalso
        have hpos := pixPos_lt hb.1 hb.2
        have hlen := List.get?_eq_none.mp hg
        omega
      | some target =>
        by_cases hf : target = fill
        · have h1 := floodFill_noop (hf ▸ hg)
          rw [h1]
          exact h1
        · have hg2 : bm.data[pixPos bm.width px py]? = some target := by
            rw [← List.get?_eq_getElem?]
            exact hg
          have hres : floodFill bm px py fill =
              { bm with data := (floodLoop bm.width bm.height target fill
                (bm.width * bm.height + 1) [(px, py)] bm.data).1 } := by
            simp [floodFill, hb, hg2, hf]
          have hm : matchColor bm.data target (pixPos bm.width px py) = true := by
            simp [matchColor, hg2]
          have hseed : (floodFill bm px py fill).data.get?
              (pixPos bm.width px py) = some fill := by
            rw [hres]
            exact floodLoop_seed bm.width bm.height target fill px py bm.data
              (bm.width * bm.height) (Nat.lt_of_le_of_lt (Nat.zero_le px) hb.1)
              hb.2 hm
          apply floodFill_noop
          rw [show (floodFill bm px py fill).width = bm.width from hWH.1]
          exact hseed
    · have h1 : floodFill bm px py fill = bm := by
        simp [floodFill, hb]
      rw [h1]
      exact h1
  exact ⟨hguard, hidem, hWH.1, hWH.2,
    fun target stack data =>
      floodLoop_count_le bm.width bm.height target fill
        (bm.width * bm.height + 1) stack data⟩

/-- Witness for C10: the theorem applied to a concrete 2 by 2 white bitmap
filled with red at seed (0, 0). -/
theorem floodFill_idempotent_witness :
    floodFill (floodFill bitmapC10 0 0 redC10) 0 0 redC10 =
      floodFill bitmapC10 0 0 redC10 :=
  (floodFill_idempotent bitmapC10 0 0 redC10 (by decide)).2.1

end DoodleParty
